import Mathlib

/-!
Verification development for the `gchemol_core` molecular-graph library.

The development shallowly embeds the Rust sources `src/molecule.rs` and
`src/formula.rs`.  Rust `HashMap`/`BiHashMap` values are embedded as
association lists, graph node handles (`NodeIndex`) as natural numbers
minted by a counter, and fallible operations (Rust panics via `expect` /
`unwrap` / fatal graph indexing) as `Option`-valued functions where `none`
models the panic.
-/

/-- Modelled from the spec: the 3-D position of an atom (spec section 6, Atom
value interface).  The concrete `f64` coordinates live in the external `atom`
module; no claim performs arithmetic on coordinates, they are only stored and
retrieved, so the coordinate carrier is abstracted to `Int`. -/
abbrev Point3 := Int × Int × Int

/-- Modelled from the spec: the Atom value interface (spec section 6): an atom
exposes a symbol, a position and a per-coordinate frozen flag consulted by
`update_position`.  The `atom` module is external to the files under
verification. -/
structure Atom where
  symbol : String
  position : Point3
  frozen : Bool × Bool × Bool
  deriving DecidableEq, Repr

/-- Modelled from the spec: `set_position` overwrites the stored position. -/
def Atom.set_position (a : Atom) (p : Point3) : Atom :=
  { a with position := p }

/-- Modelled from the spec: `set_symbol` overwrites the stored symbol. -/
def Atom.set_symbol (a : Atom) (s : String) : Atom :=
  { a with symbol := s }

/-- Modelled from the spec: `update_position` leaves every frozen coordinate
component unchanged and overwrites the others (spec glossary, frozen
coordinate). -/
def Atom.update_position (a : Atom) (p : Point3) : Atom :=
  { a with
    position :=
      (if a.frozen.1 then a.position.1 else p.1,
       if a.frozen.2.1 then a.position.2.1 else p.2.1,
       if a.frozen.2.2 then a.position.2.2 else p.2.2) }

/-- Modelled from the spec: the Bond value interface (spec section 6): a bond
carries a bond-order/kind value.  The `bond` module is external to the files
under verification. -/
structure Bond where
  kind : String
  deriving DecidableEq, Repr

/-- Modelled from the spec: bonds have constructors for each standard order;
`Bond.single` is the one used in the exercised scenarios. -/
def Bond.single : Bond := ⟨"single"⟩

/-- Modelled from the spec: crystalline lattice, a passive field of `Molecule`
(spec section 1); its content is out of scope, only its preservation
matters.  Named `CrystalLattice` because Mathlib already claims the name
`Lattice`. -/
structure CrystalLattice where
  vectors : List Point3
  deriving DecidableEq, Repr

/-- Modelled from the spec: arbitrary key-value property store, a passive
field of `Molecule` (spec section 1). -/
structure PropertyStore where
  data : List (String × String)
  deriving DecidableEq, Repr

/-- Association-list lookup: value of the first entry whose key is `k`.
Embeds `HashMap`/`BiHashMap` forward lookup (keys are unique in every list the
code builds, so first-match agrees with map lookup). -/
def alookup {κ α : Type} [DecidableEq κ] (l : List (κ × α)) (k : κ) : Option α :=
  (l.find? (fun p => decide (p.1 = k))).map Prod.snd

/-- Association-list removal of every entry with key `k` (with unique keys,
exactly the one entry), embedding map-entry removal. -/
def aremove {κ α : Type} [DecidableEq κ] (l : List (κ × α)) (k : κ) : List (κ × α) :=
  l.filter (fun p => decide (¬ p.1 = k))

/-- Graph Store of the Molecule.  Embeds the external `NxGraph<Atom, Bond>`
as specified by the Graph Store interface of spec section 6: nodes are an
association list from minted handles to atom values, undirected edges are
keyed by the normalised handle pair, and `fresh` is the handle-minting
counter (the spec lets the store mint any unused handle; a counter is one
such store). -/
structure MolGraph where
  nodes : List (Nat × Atom)
  edges : List ((Nat × Nat) × Bond)
  fresh : Nat
  deriving DecidableEq, Repr

/-- Normalise an unordered handle pair, so that edge lookup is symmetric in
the two endpoints as in the undirected `NxGraph`. -/
def normPair (a b : Nat) : Nat × Nat :=
  if a ≤ b then (a, b) else (b, a)

/-- Graph Store `add_node`: mints a fresh handle for the value. -/
def MolGraph.add_node (g : MolGraph) (a : Atom) : Nat × MolGraph :=
  (g.fresh, { g with nodes := g.nodes ++ [(g.fresh, a)], fresh := g.fresh + 1 })

/-- Graph Store `remove_node`: returns the removed value (if the handle was
live) and drops the node together with every incident edge. -/
def MolGraph.remove_node (g : MolGraph) (n : Nat) : Option Atom × MolGraph :=
  (alookup g.nodes n,
   { g with
     nodes := aremove g.nodes n,
     edges := g.edges.filter (fun e => decide (¬ e.1.1 = n) && decide (¬ e.1.2 = n)) })

/-- Graph Store `add_edge`: replaces any existing edge between the pair. -/
def MolGraph.add_edge (g : MolGraph) (n1 n2 : Nat) (b : Bond) : MolGraph :=
  { g with edges := aremove g.edges (normPair n1 n2) ++ [(normPair n1 n2, b)] }

/-- Graph Store `remove_edge`: returns the removed edge value if one existed. -/
def MolGraph.remove_edge (g : MolGraph) (n1 n2 : Nat) : Option Bond × MolGraph :=
  (alookup g.edges (normPair n1 n2),
   { g with edges := aremove g.edges (normPair n1 n2) })

/-- Graph Store edge lookup, the `graph[(n1, n2)]` indexing.  Spec section 6:
`edge_value(handle, handle) → value` is fatal if no such edge; `none` here
models that fatality. -/
def MolGraph.edge_value (g : MolGraph) (n1 n2 : Nat) : Option Bond :=
  alookup g.edges (normPair n1 n2)

/-- Graph Store node-value lookup, the `graph[n]` indexing (`none` models a
dead handle, which under the molecule invariant never occurs). -/
def MolGraph.node_value (g : MolGraph) (n : Nat) : Option Atom :=
  alookup g.nodes n

/-- Graph Store in-place node-value modification, `graph[n] = f(graph[n])`. -/
def MolGraph.modify_node (g : MolGraph) (n : Nat) (f : Atom → Atom) : MolGraph :=
  { g with nodes := g.nodes.map (fun p => if p.1 = n then (p.1, f p.2) else p) }

/-- Graph Store node count. -/
def MolGraph.number_of_nodes (g : MolGraph) : Nat :=
  g.nodes.length

/-- Graph Store edge count. -/
def MolGraph.number_of_edges (g : MolGraph) : Nat :=
  g.edges.length

/-- Graph Store `clear`: empties the store. -/
def MolGraph.clear (_g : MolGraph) : MolGraph :=
  { nodes := [], edges := [], fresh := 0 }

/-- The `Molecule` struct of `src/molecule.rs`: properties, optional lattice,
name, graph and the serial-number-to-handle `BiHashMap` (embedded as an
association list whose two-sided uniqueness is the `wf` invariant below). -/
structure Molecule where
  properties : PropertyStore
  lattice : Option CrystalLattice
  name : String
  graph : MolGraph
  mapping : List (Nat × Nat)
  deriving DecidableEq, Repr

/-- The `Default` instance of `Molecule`: everything empty. -/
def Molecule.defaultMol : Molecule :=
  { properties := ⟨[]⟩, lattice := none, name := "", graph := ⟨[], [], 0⟩, mapping := [] }

/-- `Molecule::new`: empty molecule with the given name. -/
def Molecule.new (name : String) : Molecule :=
  { Molecule.defaultMol with name := name }

/-- `Molecule::get_node_index`: `mapping.get_by_left(sn)`. -/
def Molecule.get_node_index (m : Molecule) (sn : Nat) : Option Nat :=
  alookup m.mapping sn

/-- `BiHashMap::insert_no_overwrite`: fails (here `none`) if either the left
key or the right value is already present. -/
def insert_no_overwrite (l : List (Nat × Nat)) (k v : Nat) : Option (List (Nat × Nat)) :=
  if l.any (fun p => decide (p.1 = k)) || l.any (fun p => decide (p.2 = v)) then none
  else some (l ++ [(k, v)])

/-- `Molecule::add_atom`: replace the stored atom value in place when the
serial number is present, otherwise mint a node and insert a fresh mapping
entry.  `none` models the `expect("add atom failure")` panic of
`insert_no_overwrite`. -/
def Molecule.add_atom (m : Molecule) (a : Nat) (atom : Atom) : Option Molecule :=
  match alookup m.mapping a with
  | some n => some { m with graph := m.graph.modify_node n (fun _ => atom) }
  | none =>
    let (n, g) := m.graph.add_node atom
    (insert_no_overwrite m.mapping a n).map (fun mp => { m with graph := g, mapping := mp })

/-- `Molecule::remove_atom_sn` followed by the graph removal of
`Molecule::remove_atom`: remove the mapping entry first, then the node (and
its incident bonds); return `none` and leave the state untouched when the
serial number is absent. -/
def Molecule.remove_atom (m : Molecule) (a : Nat) : Option Atom × Molecule :=
  match alookup m.mapping a with
  | some n =>
    let (v, g) := m.graph.remove_node n
    (v, { m with mapping := aremove m.mapping a, graph := g })
  | none => (none, m)

/-- `Molecule::natoms`. -/
def Molecule.natoms (m : Molecule) : Nat :=
  m.graph.number_of_nodes

/-- `Molecule::nbonds`. -/
def Molecule.nbonds (m : Molecule) : Nat :=
  m.graph.number_of_edges

/-- `Molecule::clear`: empties the mapping and the graph, and nothing else. -/
def Molecule.clear (m : Molecule) : Molecule :=
  { m with mapping := [], graph := m.graph.clear }

/-- `Molecule::serial_numbers`: left values of the mapping, sorted
ascending. -/
def Molecule.serial_numbers (m : Molecule) : List Nat :=
  List.insertionSort (· ≤ ·) (m.mapping.map Prod.fst)

/-- `Molecule::add_bond`: resolves both endpoints through `node_index`
(`none` models its panic on an absent serial number), then adds/replaces the
edge. -/
def Molecule.add_bond (m : Molecule) (a b : Nat) (bond : Bond) : Option Molecule :=
  match alookup m.mapping a, alookup m.mapping b with
  | some na, some nb => some { m with graph := m.graph.add_edge na nb bond }
  | _, _ => none

/-- `Molecule::remove_bond`: resolves both endpoints through `node_index`
(`none` models its panic), then removes the edge, returning the removed bond
or `none` if the present pair had no bond. -/
def Molecule.remove_bond (m : Molecule) (a b : Nat) : Option (Option Bond × Molecule) :=
  match alookup m.mapping a, alookup m.mapping b with
  | some na, some nb =>
    some ((m.graph.remove_edge na nb).1, { m with graph := (m.graph.remove_edge na nb).2 })
  | _, _ => none

/-- `Molecule::get_atom`: resolve the serial number and read the node
value. -/
def Molecule.get_atom (m : Molecule) (sn : Nat) : Option Atom :=
  (m.get_node_index sn).bind (fun n => m.graph.node_value n)

/-- Outcome of `Molecule::get_bond`: the function returns `None` (`absent`),
returns `Some bond` (`found`), or dies inside the fatal graph edge indexing
(`fatal`). -/
inductive BondQuery where
  | absent
  | found (b : Bond)
  | fatal
  deriving DecidableEq, Repr

/-- `Molecule::get_bond`: when both serial numbers resolve it evaluates
`graph[(n1, n2)]`, which is fatal when the two atoms are unbonded (spec
section 6 edge lookup); only an unresolved serial number yields `None`. -/
def Molecule.get_bond (m : Molecule) (sn1 sn2 : Nat) : BondQuery :=
  match alookup m.mapping sn1, alookup m.mapping sn2 with
  | some n1, some n2 =>
    match m.graph.edge_value n1 n2 with
    | some b => BondQuery.found b
    | none => BondQuery.fatal
  | _, _ => BondQuery.absent

/-- `Molecule::set_position`: `none` models the
`expect("invalid atom serial number")` panic on an absent serial number. -/
def Molecule.set_position (m : Molecule) (sn : Nat) (p : Point3) : Option Molecule :=
  (m.get_node_index sn).map
    (fun n => { m with graph := m.graph.modify_node n (fun a => a.set_position p) })

/-- `Molecule::set_symbol`: `none` models the panic on an absent serial
number. -/
def Molecule.set_symbol (m : Molecule) (sn : Nat) (s : String) : Option Molecule :=
  (m.get_node_index sn).map
    (fun n => { m with graph := m.graph.modify_node n (fun a => a.set_symbol s) })

/-- `Molecule::set_title`: unconditional overwrite of the stored name. -/
def Molecule.set_title (m : Molecule) (t : String) : Molecule :=
  { m with name := t }

/-- One step of the positional bulk setters: look up the serial number and
modify that atom with `upd` applied to the supplied value; `none` models the
loop body's `unwrap` panic. -/
def bulkStep {α : Type} (upd : Atom → α → Atom) (acc : Molecule) (q : Nat × α) : Option Molecule :=
  (acc.get_node_index q.1).map
    (fun n => { acc with graph := acc.graph.modify_node n (fun a => upd a q.2) })

/-- `Molecule::set_positions`: zip the ascending serial numbers with the
supplied positions and set each in turn. -/
def Molecule.set_positions (m : Molecule) (ps : List Point3) : Option Molecule :=
  (m.serial_numbers.zip ps).foldlM (bulkStep (fun a p => a.set_position p)) m

/-- `Molecule::update_positions`: like `set_positions` but through
`Atom.update_position`, which respects frozen coordinates. -/
def Molecule.update_positions (m : Molecule) (ps : List Point3) : Option Molecule :=
  (m.serial_numbers.zip ps).foldlM (bulkStep (fun a p => a.update_position p)) m

/-- `Molecule::set_symbols`: zip the ascending serial numbers with the
supplied symbols and set each in turn. -/
def Molecule.set_symbols (m : Molecule) (ss : List String) : Option Molecule :=
  (m.serial_numbers.zip ss).foldlM (bulkStep (fun a s => a.set_symbol s)) m

/-- Split a character list at every newline character; a list with `n`
newlines yields `n + 1` (possibly empty) parts. -/
def splitNewline : List Char → List (List Char)
  | [] => [[]]
  | c :: rest =>
    if c = '\n' then [] :: splitNewline rest
    else
      match splitNewline rest with
      | [] => [[c]]
      | l :: ls => (c :: l) :: ls

/-- Strip one trailing carriage-return character, as Rust `str::lines` does
to every line that ended with a newline. -/
def stripCRend (l : List Char) : List Char :=
  if l.getLast? = some '\r' then l.dropLast else l

/-- Embedding of Rust `str::lines`: split at newlines, strip a trailing
carriage return from every part that was terminated by a newline (every part
but the last), and drop a final empty part (the optional final line
terminator). -/
def rustLines (cs : List Char) : List (List Char) :=
  match (splitNewline cs).getLast? with
  | none => []
  | some last =>
    if last = [] then (splitNewline cs).dropLast.map stripCRend
    else (splitNewline cs).dropLast.map stripCRend ++ [last]

/-- Whitespace test used by the embedding of Rust `str::trim` (the ASCII
whitespace characters; the claims exercise no exotic Unicode whitespace). -/
def isWS (c : Char) : Bool :=
  c = ' ' || c = '\t' || c = '\n' || c = '\r'

/-- Embedding of Rust `str::trim`: drop leading and trailing whitespace. -/
def rustTrim (l : List Char) : List Char :=
  ((l.dropWhile isWS).reverse.dropWhile isWS).reverse

/-- Characters of the first line of a string: everything before the first
newline.  Used only by the amended specification of `title`, independently of
the `splitNewline` machinery of the embedding. -/
def firstLineChars (cs : List Char) : List Char :=
  cs.takeWhile (fun c => !(c = '\n'))

/-- Amended specification of `title`: the first line of the name (which may
be empty) trimmed of surrounding whitespace, or the placeholder exactly when
the name is the empty string. -/
def titleSpecAmended (name : String) : String :=
  if name = "" then "untitled" else ⟨rustTrim (firstLineChars name.data)⟩

/-- `Molecule::title`: collect the lines of the name; if there are none the
fixed placeholder, otherwise the first line trimmed. -/
def Molecule.title (m : Molecule) : String :=
  match rustLines m.name.data with
  | [] => "untitled"
  | t :: _ => ⟨rustTrim t⟩

/-- One step of the counting loop of `get_reduced_symbols`: bump the count of
a seen symbol, or append a new entry with count 1. -/
def countStep (counts : List (String × Nat)) (x : String) : List (String × Nat) :=
  if counts.any (fun p => decide (p.1 = x)) then
    counts.map (fun p => if p.1 = x then (p.1, p.2 + 1) else p)
  else counts ++ [(x, 1)]

/-- `get_reduced_symbols` of `src/formula.rs`: count the occurrences of every
symbol.  The Rust `HashMap` is embedded as an association list in first-
appearance order (the `HashMap` iteration order is unspecified; this is one
order consistent with it, and nothing proved below about individual entries
depends on it). -/
def get_reduced_symbols (symbols : List String) : List (String × Nat) :=
  symbols.foldl countStep []

/-- Fragment rendering of `get_reduced_formula` step 2.1: omit the count when
it is 1. -/
def renderFragment (k : String) (v : Nat) : String :=
  if v > 1 then k ++ toString v else k

/-- The inner loop of `get_reduced_formula`: a carbon fragment is inserted at
the front of `syms`, a hydrogen fragment is remembered in `to_append`, every
other fragment is pushed at the back. -/
def formulaStep (acc : List String × String) (kv : String × Nat) : List String × String :=
  let reduced := renderFragment kv.1 kv.2
  if kv.1 = "C" then (reduced :: acc.1, acc.2)
  else if kv.1 = "H" then (acc.1, reduced)
  else (acc.1 ++ [reduced], acc.2)

/-- `get_reduced_formula` of `src/formula.rs`: count the symbols, render the
fragments carbon-first and hydrogen-last, and join. -/
def get_reduced_formula (symbols : List String) : String :=
  let counts := get_reduced_symbols symbols
  let folded := counts.foldl formulaStep ([], "")
  String.join (folded.1 ++ [folded.2])

/-- Well-formedness of a `Molecule`, the identity-map invariant of spec
section 3: serial numbers unique, handles unique on both sides, the handle
sets of the mapping and the graph coincide, and every live handle is below
the minting counter. -/
def Molecule.wf (m : Molecule) : Prop :=
  (m.mapping.map Prod.fst).Nodup ∧
  (m.mapping.map Prod.snd).Nodup ∧
  (m.graph.nodes.map Prod.fst).Nodup ∧
  (∀ n ∈ m.mapping.map Prod.snd, n ∈ m.graph.nodes.map Prod.fst) ∧
  (∀ n ∈ m.graph.nodes.map Prod.fst, n ∈ m.mapping.map Prod.snd) ∧
  (∀ n ∈ m.graph.nodes.map Prod.fst, n < m.graph.fresh)

instance (m : Molecule) : Decidable m.wf := by
  unfold Molecule.wf
  infer_instance

/-- The atom-editing operations quantified over by the bijection invariant:
`add_atom`, `remove_atom` and `clear`. -/
inductive MolOp where
  | addA (sn : Nat) (a : Atom)
  | removeA (sn : Nat)
  | clearA
  deriving DecidableEq, Repr

/-- Apply one editing operation; `none` models a panic (which the invariant
theorem shows never happens from a well-formed state). -/
def applyOp (m : Molecule) : MolOp → Option Molecule
  | MolOp.addA sn a => m.add_atom sn a
  | MolOp.removeA sn => some (m.remove_atom sn).2
  | MolOp.clearA => some m.clear

/-- Run a sequence of editing operations from the empty molecule. -/
def execOps (ops : List MolOp) : Option Molecule :=
  ops.foldlM applyOp Molecule.defaultMol

/-- One step of the specification-side account of which atom value was most
recently added under each serial number. -/
def lastAddedStep (f : Nat → Option Atom) : MolOp → (Nat → Option Atom)
  | MolOp.addA sn a => fun x => if x = sn then some a else f x
  | MolOp.removeA sn => fun x => if x = sn then none else f x
  | MolOp.clearA => fun _ => none

/-- The atom value most recently added under each serial number after a
sequence of editing operations from the empty molecule. -/
def lastAdded (ops : List MolOp) : Nat → Option Atom :=
  ops.foldl lastAddedStep (fun _ => none)

/-- Specification-side description of one positional bulk update: the atom at
serial number `sn` is updated with the value zipped against `sn` in the
pairing of the ascending serial numbers with the supplied values, and is
unchanged when `sn` is not paired (because it is absent, or because the
supplied sequence ran out first); supplied values beyond the atom count are
ignored by the zip. -/
def pairedUpd {α : Type} (upd : Atom → α → Atom) (m : Molecule) (vals : List α) (sn : Nat) :
    Option Atom :=
  match (m.serial_numbers.zip vals).find? (fun q => decide (q.1 = sn)) with
  | some q => (m.get_atom sn).map (fun a => upd a q.2)
  | none => m.get_atom sn

/-- Concrete carbon atom used by the witness scenarios. -/
def atomC : Atom := ⟨"C", (0, 0, 0), (false, false, false)⟩

/-- Concrete hydrogen atom used by the witness scenarios. -/
def atomH : Atom := ⟨"H", (0, 0, 0), (false, false, false)⟩

/-- Concrete oxygen atom used by the witness scenarios. -/
def atomO : Atom := ⟨"O", (0, 0, 0), (false, false, false)⟩

/-- Two-atom molecule with serial numbers 1 and 2 and no bond, the state
reached by adding `atomC` as serial 1 and `atomH` as serial 2 to the empty
molecule. -/
def molAB : Molecule := ⟨⟨[]⟩, none, "", ⟨[(0, atomC), (1, atomH)], [], 2⟩, [(1, 0), (2, 1)]⟩

section AssocLemmas

variable {κ α : Type} [DecidableEq κ]

@[simp]
theorem alookup_nil (k : κ) : alookup ([] : List (κ × α)) k = none := rfl

theorem alookup_cons (p : κ × α) (l : List (κ × α)) (k : κ) :
    alookup (p :: l) k = if p.1 = k then some p.2 else alookup l k := by
  by_cases h : p.1 = k <;> simp [alookup, List.find?_cons, h]

@[simp]
theorem aremove_nil (k : κ) : aremove ([] : List (κ × α)) k = [] := rfl

theorem aremove_cons (p : κ × α) (l : List (κ × α)) (k : κ) :
    aremove (p :: l) k = if p.1 = k then aremove l k else p :: aremove l k := by
  by_cases h : p.1 = k <;> simp [aremove, List.filter_cons, h]

theorem alookup_append (l₁ l₂ : List (κ × α)) (k : κ) :
    alookup (l₁ ++ l₂) k = (alookup l₁ k).or (alookup l₂ k) := by
  induction l₁ with
  | nil => simp
  | cons p l ih =>
    by_cases h : p.1 = k <;> simp [alookup_cons, h, ih]

theorem alookup_isSome_iff (l : List (κ × α)) (k : κ) :
    (alookup l k).isSome = true ↔ k ∈ l.map Prod.fst := by
  induction l with
  | nil => simp
  | cons p l ih =>
    by_cases h : p.1 = k <;> simp [alookup_cons, h, ih]
    exact fun hk => absurd hk.symm h

theorem alookup_eq_none_iff (l : List (κ × α)) (k : κ) :
    alookup l k = none ↔ k ∉ l.map Prod.fst := by
  rw [← alookup_isSome_iff, Option.isSome_iff_exists]
  cases alookup l k <;> simp

theorem alookup_mem (l : List (κ × α)) (k : κ) (v : α) (h : alookup l k = some v) :
    (k, v) ∈ l := by
  induction l with
  | nil => simp at h
  | cons p l ih =>
    rw [alookup_cons] at h
    by_cases hp : p.1 = k
    · rw [if_pos hp] at h
      have hpe : p = (k, v) := by
        cases p
        simp only [Option.some.injEq] at h
        simp_all
      rw [← hpe]
      exact List.mem_cons_self _ _
    · rw [if_neg hp] at h
      exact List.mem_cons_of_mem _ (ih h)

theorem alookup_aremove_self (l : List (κ × α)) (k : κ) :
    alookup (aremove l k) k = none := by
  induction l with
  | nil => simp
  | cons p l ih =>
    by_cases h : p.1 = k <;> simp [aremove_cons, alookup_cons, h, ih]

theorem alookup_aremove_ne (l : List (κ × α)) (k k' : κ) (h : ¬ k' = k) :
    alookup (aremove l k) k' = alookup l k' := by
  induction l with
  | nil => simp
  | cons p l ih =>
    by_cases hp : p.1 = k
    · rw [aremove_cons, if_pos hp, ih, alookup_cons, if_neg (by rw [hp]; exact fun e => h e.symm)]
    · rw [aremove_cons, if_neg hp, alookup_cons, alookup_cons, ih]

theorem mem_keys_aremove (l : List (κ × α)) (k x : κ) :
    x ∈ (aremove l k).map Prod.fst ↔ x ∈ l.map Prod.fst ∧ ¬ x = k := by
  induction l with
  | nil => simp
  | cons p l ih =>
    by_cases hp : p.1 = k
    · rw [aremove_cons, if_pos hp]
      simp only [List.map_cons, List.mem_cons, ih]
      constructor
      · exact fun h => ⟨Or.inr h.1, h.2⟩
      · rintro ⟨h | h, hx⟩
        · exact absurd (h.trans hp) hx
        · exact ⟨h, hx⟩
    · rw [aremove_cons, if_neg hp]
      simp only [List.map_cons, List.mem_cons, ih]
      constructor
      · rintro (h | h)
        · exact ⟨Or.inl h, h ▸ hp⟩
        · exact ⟨Or.inr h.1, h.2⟩
      · rintro ⟨h | h, hx⟩
        · exact Or.inl h
        · exact Or.inr ⟨h, hx⟩

theorem keys_sublist_aremove (l : List (κ × α)) (k : κ) :
    ((aremove l k).map Prod.fst).Sublist (l.map Prod.fst) :=
  List.Sublist.map Prod.fst (List.filter_sublist l)

theorem vals_sublist_aremove (l : List (κ × α)) (k : κ) :
    ((aremove l k).map Prod.snd).Sublist (l.map Prod.snd) :=
  List.Sublist.map Prod.snd (List.filter_sublist l)

theorem mem_vals_aremove (l : List (κ × α)) (sn : κ) (n : α)
    (hfst : (l.map Prod.fst).Nodup) (hsnd : (l.map Prod.snd).Nodup)
    (h : alookup l sn = some n) [DecidableEq α] :
    ∀ x, x ∈ (aremove l sn).map Prod.snd ↔ x ∈ l.map Prod.snd ∧ ¬ x = n := by
  intro x
  have hmem : (sn, n) ∈ l := alookup_mem l sn n h
  constructor
  · intro hx
    simp only [List.mem_map] at hx
    obtain ⟨p, hp, hpx⟩ := hx
    have hpl : p ∈ l := List.mem_of_mem_filter hp
    have hpk : ¬ p.1 = sn := by
      have := List.of_mem_filter hp
      simpa using this
    refine ⟨List.mem_map.mpr ⟨p, hpl, hpx⟩, ?_⟩
    intro hxe
    have : p = (sn, n) := by
      apply List.inj_on_of_nodup_map hsnd hpl hmem
      simp [hpx, hxe]
    exact hpk (by rw [this])
  · rintro ⟨hx, hxn⟩
    simp only [List.mem_map] at hx
    obtain ⟨p, hp, hpx⟩ := hx
    have hpk : ¬ p.1 = sn := by
      intro hps
      have : p = (sn, n) := by
        apply List.inj_on_of_nodup_map hfst hp hmem
        simp [hps]
      exact hxn (by rw [← hpx, this])
    refine List.mem_map.mpr ⟨p, ?_, hpx⟩
    exact List.mem_filter.mpr ⟨hp, by simpa using hpk⟩

theorem alookup_modify (l : List (κ × α)) (n k : κ) (f : α → α) :
    alookup (l.map (fun p => if p.1 = n then (p.1, f p.2) else p)) k =
      if k = n then (alookup l k).map f else alookup l k := by
  induction l with
  | nil => by_cases h : k = n <;> simp [h]
  | cons p l ih =>
    by_cases hp : p.1 = n
    · by_cases hk : k = n
      · subst hk
        simp [alookup_cons, hp, ih]
      · have hpk : ¬ p.1 = k := by rw [hp]; exact fun e => hk e.symm
        have hnk : ¬ n = k := fun e => hk e.symm
        simp [alookup_cons, hp, hpk, ih, hk, hnk]
    · by_cases hpk : p.1 = k
      · have hk : ¬ k = n := by rw [← hpk]; exact hp
        simp [alookup_cons, hp, hpk, hk]
      · simp [alookup_cons, hp, hpk, ih]

theorem keys_modify (l : List (κ × α)) (n : κ) (f : α → α) :
    (l.map (fun p => if p.1 = n then (p.1, f p.2) else p)).map Prod.fst = l.map Prod.fst := by
  induction l with
  | nil => rfl
  | cons p l ih =>
    by_cases hp : p.1 = n <;> simp [hp, ih]

end AssocLemmas

section MoleculeLemmas

theorem alookup_fst_inj {κ α : Type} [DecidableEq κ] (l : List (κ × α))
    (hsnd : (l.map Prod.snd).Nodup) (k1 k2 : κ) (v : α)
    (h1 : alookup l k1 = some v) (h2 : alookup l k2 = some v) : k1 = k2 := by
  have hm1 := alookup_mem l k1 v h1
  have hm2 := alookup_mem l k2 v h2
  have := List.inj_on_of_nodup_map hsnd hm1 hm2 rfl
  exact congrArg Prod.fst this

theorem mem_vals_of_alookup {κ α : Type} [DecidableEq κ] (l : List (κ × α)) (k : κ) (v : α)
    (h : alookup l k = some v) : v ∈ l.map Prod.snd :=
  List.mem_map.mpr ⟨(k, v), alookup_mem l k v h, rfl⟩

theorem get_atom_eq (m : Molecule) (sn : Nat) :
    m.get_atom sn = (alookup m.mapping sn).bind (fun n => alookup m.graph.nodes n) := rfl

theorem modify_node_wf (m : Molecule) (n : Nat) (f : Atom → Atom) (hwf : m.wf) :
    ({ m with graph := m.graph.modify_node n f } : Molecule).wf := by
  obtain ⟨h1, h2, h3, h4, h5, h6⟩ := hwf
  have hk : (m.graph.modify_node n f).nodes.map Prod.fst = m.graph.nodes.map Prod.fst :=
    keys_modify _ _ _
  refine ⟨h1, h2, ?_, ?_, ?_, ?_⟩
  · show ((m.graph.modify_node n f).nodes.map Prod.fst).Nodup
    rw [hk]
    exact h3
  · show ∀ x ∈ m.mapping.map Prod.snd, x ∈ (m.graph.modify_node n f).nodes.map Prod.fst
    rw [hk]
    exact h4
  · show ∀ x ∈ (m.graph.modify_node n f).nodes.map Prod.fst, x ∈ m.mapping.map Prod.snd
    rw [hk]
    exact h5
  · show ∀ x ∈ (m.graph.modify_node n f).nodes.map Prod.fst, x < m.graph.fresh
    rw [hk]
    exact h6

theorem modify_node_natoms (m : Molecule) (n : Nat) (f : Atom → Atom) :
    ({ m with graph := m.graph.modify_node n f } : Molecule).natoms = m.natoms := by
  simp [Molecule.natoms, MolGraph.number_of_nodes, MolGraph.modify_node]

theorem modify_node_get_atom (m : Molecule) (sn n : Nat) (f : Atom → Atom)
    (hwf : m.wf) (h : alookup m.mapping sn = some n) :
    ∀ x, ({ m with graph := m.graph.modify_node n f } : Molecule).get_atom x =
      if x = sn then (m.get_atom x).map f else m.get_atom x := by
  obtain ⟨h1, h2, h3, h4, h5, h6⟩ := hwf
  intro x
  rw [get_atom_eq, get_atom_eq]
  show (alookup m.mapping x).bind
      (fun nd => alookup (m.graph.nodes.map (fun p => if p.1 = n then (p.1, f p.2) else p)) nd) = _
  cases hx : alookup m.mapping x with
  | none =>
    have hxs : ¬ x = sn := fun he => by rw [he, h] at hx; exact Option.noConfusion hx
    simp [hxs]
  | some nd =>
    by_cases hxs : x = sn
    · subst hxs
      rw [h] at hx
      injection hx with hx
      subst hx
      simp [alookup_modify]
    · have hne : ¬ nd = n := by
        intro he
        subst he
        exact hxs (alookup_fst_inj m.mapping h2 x sn nd hx h)
      simp [alookup_modify, hne, hxs]

theorem add_atom_spec (m : Molecule) (sn : Nat) (a : Atom) (hwf : m.wf) :
    ∃ m', m.add_atom sn a = some m' ∧ m'.wf ∧
      (∀ x, m'.get_atom x = if x = sn then some a else m.get_atom x) := by
  obtain ⟨h1, h2, h3, h4, h5, h6⟩ := hwf
  cases h : alookup m.mapping sn with
  | some n =>
    refine ⟨{ m with graph := m.graph.modify_node n (fun _ => a) }, ?_, ?_, ?_⟩
    · simp [Molecule.add_atom, h]
    · exact modify_node_wf m n (fun _ => a) ⟨h1, h2, h3, h4, h5, h6⟩
    · intro x
      rw [modify_node_get_atom m sn n (fun _ => a) ⟨h1, h2, h3, h4, h5, h6⟩ h x]
      by_cases hxs : x = sn
      · subst hxs
        have hnk : n ∈ m.graph.nodes.map Prod.fst := h4 n (mem_vals_of_alookup _ _ _ h)
        have hs := (alookup_isSome_iff m.graph.nodes n).mpr hnk
        rw [get_atom_eq, h]
        cases hv : alookup m.graph.nodes n with
        | none => rw [hv] at hs; exact absurd hs (by simp)
        | some v => simp [hv]
      · simp [hxs]
  | none =>
    have hsk : sn ∉ m.mapping.map Prod.fst := (alookup_eq_none_iff _ _).mp h
    have hfr : m.graph.fresh ∉ m.mapping.map Prod.snd := by
      intro hmem
      exact absurd (h6 _ (h4 _ hmem)) (lt_irrefl _)
    have hfrk : m.graph.fresh ∉ m.graph.nodes.map Prod.fst := by
      intro hmem
      exact absurd (h6 _ hmem) (lt_irrefl _)
    have hins : insert_no_overwrite m.mapping sn m.graph.fresh =
        some (m.mapping ++ [(sn, m.graph.fresh)]) := by
      unfold insert_no_overwrite
      rw [if_neg]
      intro hor
      rcases Bool.or_eq_true _ _ |>.mp hor with hl | hr
      · obtain ⟨p, hp, hps⟩ := List.any_eq_true.mp hl
        exact hsk (List.mem_map.mpr ⟨p, hp, of_decide_eq_true hps⟩)
      · obtain ⟨p, hp, hps⟩ := List.any_eq_true.mp hr
        exact hfr (List.mem_map.mpr ⟨p, hp, of_decide_eq_true hps⟩)
    refine ⟨{ m with
        graph := { nodes := m.graph.nodes ++ [(m.graph.fresh, a)],
                   edges := m.graph.edges, fresh := m.graph.fresh + 1 },
        mapping := m.mapping ++ [(sn, m.graph.fresh)] }, ?_, ?_, ?_⟩
    · simp [Molecule.add_atom, h, MolGraph.add_node, hins]
    · refine ⟨?_, ?_, ?_, ?_, ?_, ?_⟩
      · rw [List.map_append, List.nodup_append]
        refine ⟨h1, by simp, ?_⟩
        intro x hx hx2
        simp only [List.map_cons, List.map_nil, List.mem_singleton] at hx2
        subst hx2
        exact hsk hx
      · rw [List.map_append, List.nodup_append]
        refine ⟨h2, by simp, ?_⟩
        intro x hx hx2
        simp only [List.map_cons, List.map_nil, List.mem_singleton] at hx2
        subst hx2
        exact hfr hx
      · rw [List.map_append, List.nodup_append]
        refine ⟨h3, by simp, ?_⟩
        intro x hx hx2
        simp only [List.map_cons, List.map_nil, List.mem_singleton] at hx2
        subst hx2
        exact hfrk hx
      · intro n hn
        simp only [List.map_append, List.mem_append, List.map_cons, List.map_nil,
          List.mem_singleton] at hn ⊢
        rcases hn with hn | hn
        · exact Or.inl (h4 n hn)
        · exact Or.inr hn
      · intro n hn
        simp only [List.map_append, List.mem_append, List.map_cons, List.map_nil,
          List.mem_singleton] at hn ⊢
        rcases hn with hn | hn
        · exact Or.inl (h5 n hn)
        · exact Or.inr hn
      · intro n hn
        simp only [List.map_append, List.mem_append, List.map_cons, List.map_nil,
          List.mem_singleton] at hn
        rcases hn with hn | hn
        · exact Nat.lt_succ_of_lt (h6 n hn)
        · exact hn ▸ Nat.lt_succ_self _
    · intro x
      rw [get_atom_eq]
      show (alookup (m.mapping ++ [(sn, m.graph.fresh)]) x).bind
        (fun nd => alookup (m.graph.nodes ++ [(m.graph.fresh, a)]) nd) = _
      rw [alookup_append]
      by_cases hxs : x = sn
      · subst hxs
        have e1 : alookup [(x, m.graph.fresh)] x = some m.graph.fresh := by
          rw [alookup_cons, if_pos rfl]
        have e2 : alookup (m.graph.nodes ++ [(m.graph.fresh, a)]) m.graph.fresh = some a := by
          rw [alookup_append, (alookup_eq_none_iff _ _).mpr hfrk, alookup_cons, if_pos rfl]
          rfl
        rw [h, e1]
        simp [e2]
      · have hsx : ¬ sn = x := fun e => hxs e.symm
        have e1 : alookup [(sn, m.graph.fresh)] x = none := by
          rw [alookup_cons, if_neg hsx]
          rfl
        rw [e1, Option.or_none]
        cases hx : alookup m.mapping x with
        | none => simp [hxs, get_atom_eq, hx]
        | some nd =>
          have hndk : nd ∈ m.graph.nodes.map Prod.fst := h4 nd (mem_vals_of_alookup _ _ _ hx)
          have hndf : ¬ nd = m.graph.fresh := fun e => absurd (h6 nd hndk) (by rw [e]; exact lt_irrefl _)
          have e2 : alookup (m.graph.nodes ++ [(m.graph.fresh, a)]) nd =
              alookup m.graph.nodes nd := by
            rw [alookup_append, alookup_cons, if_neg (fun e => hndf e.symm)]
            show (alookup m.graph.nodes nd).or (alookup [] nd) = _
            rw [alookup_nil, Option.or_none]
          simp [hxs, get_atom_eq, hx, e2]

theorem remove_atom_spec (m : Molecule) (sn : Nat) (hwf : m.wf) :
    ((m.remove_atom sn).2).wf ∧
      (∀ x, (m.remove_atom sn).2.get_atom x = if x = sn then none else m.get_atom x) := by
  obtain ⟨h1, h2, h3, h4, h5, h6⟩ := hwf
  cases h : alookup m.mapping sn with
  | none =>
    have hm : m.remove_atom sn = (none, m) := by simp [Molecule.remove_atom, h]
    rw [hm]
    refine ⟨⟨h1, h2, h3, h4, h5, h6⟩, ?_⟩
    intro x
    by_cases hxs : x = sn
    · subst hxs
      simp [get_atom_eq, h]
    · simp [hxs]
  | some n =>
    have hm : (m.remove_atom sn).2 =
        { m with mapping := aremove m.mapping sn,
                 graph := { nodes := aremove m.graph.nodes n,
                            edges := m.graph.edges.filter
                              (fun e => decide (¬ e.1.1 = n) && decide (¬ e.1.2 = n)),
                            fresh := m.graph.fresh } } := by
      simp [Molecule.remove_atom, h, MolGraph.remove_node]
    rw [hm]
    constructor
    · refine ⟨List.Nodup.sublist (keys_sublist_aremove _ _) h1,
        List.Nodup.sublist (vals_sublist_aremove _ _) h2,
        List.Nodup.sublist (keys_sublist_aremove _ _) h3, ?_, ?_, ?_⟩
      · intro x hx
        rw [mem_vals_aremove m.mapping sn n h1 h2 h] at hx
        exact (mem_keys_aremove _ _ _).mpr ⟨h4 x hx.1, hx.2⟩
      · intro x hx
        rw [mem_keys_aremove] at hx
        exact (mem_vals_aremove m.mapping sn n h1 h2 h _).mpr ⟨h5 x hx.1, hx.2⟩
      · intro x hx
        exact h6 x ((mem_keys_aremove _ _ _).mp hx).1
    · intro x
      by_cases hxs : x = sn
      · subst hxs
        simp [get_atom_eq, alookup_aremove_self]
      · rw [if_neg hxs, get_atom_eq, get_atom_eq]
        show (alookup (aremove m.mapping sn) x).bind (fun nd => alookup (aremove m.graph.nodes n) nd) = _
        rw [alookup_aremove_ne _ _ _ hxs]
        cases hx : alookup m.mapping x with
        | none => simp
        | some nd =>
          have hne : ¬ nd = n := by
            intro he
            subst he
            exact hxs (alookup_fst_inj m.mapping h2 x sn nd hx h)
          simp [alookup_aremove_ne _ _ _ hne]

theorem clear_wf (m : Molecule) : (m.clear).wf := by
  refine ⟨?_, ?_, ?_, ?_, ?_, ?_⟩ <;> simp [Molecule.clear, MolGraph.clear]

theorem clear_get_atom (m : Molecule) : ∀ x, (m.clear).get_atom x = none := by
  intro x
  simp [get_atom_eq, Molecule.clear]

theorem defaultMol_wf : Molecule.defaultMol.wf := by
  refine ⟨?_, ?_, ?_, ?_, ?_, ?_⟩ <;> simp [Molecule.defaultMol]

theorem defaultMol_get_atom : ∀ x, Molecule.defaultMol.get_atom x = none := by
  intro x
  simp [get_atom_eq, Molecule.defaultMol]

theorem exec_inv (ops : List MolOp) :
    ∀ (m : Molecule) (f : Nat → Option Atom), m.wf → (∀ sn, m.get_atom sn = f sn) →
      ∃ m', List.foldlM applyOp m ops = some m' ∧ m'.wf ∧
        ∀ sn, m'.get_atom sn = ops.foldl lastAddedStep f sn := by
  induction ops with
  | nil =>
    intro m f hwf hf
    exact ⟨m, rfl, hwf, by simpa using hf⟩
  | cons op rest ih =>
    intro m f hwf hf
    cases op with
    | addA sn a =>
      obtain ⟨m1, he, hwf1, hg⟩ := add_atom_spec m sn a hwf
      have hf1 : ∀ x, m1.get_atom x = lastAddedStep f (MolOp.addA sn a) x := by
        intro x
        rw [hg x]
        by_cases hx : x = sn <;> simp [lastAddedStep, hx, hf]
      obtain ⟨m', he', hwf', hg'⟩ := ih m1 (lastAddedStep f (MolOp.addA sn a)) hwf1 hf1
      refine ⟨m', ?_, hwf', hg'⟩
      rw [List.foldlM_cons]
      show (applyOp m (MolOp.addA sn a)) >>= (fun b => List.foldlM applyOp b rest) = some m'
      rw [show applyOp m (MolOp.addA sn a) = some m1 from he]
      simpa using he'
    | removeA sn =>
      obtain ⟨hwf1, hg⟩ := remove_atom_spec m sn hwf
      have hf1 : ∀ x, (m.remove_atom sn).2.get_atom x = lastAddedStep f (MolOp.removeA sn) x := by
        intro x
        rw [hg x]
        by_cases hx : x = sn <;> simp [lastAddedStep, hx, hf]
      obtain ⟨m', he', hwf', hg'⟩ := ih (m.remove_atom sn).2 (lastAddedStep f (MolOp.removeA sn)) hwf1 hf1
      refine ⟨m', ?_, hwf', hg'⟩
      rw [List.foldlM_cons]
      show (applyOp m (MolOp.removeA sn)) >>= (fun b => List.foldlM applyOp b rest) = some m'
      simpa [applyOp] using he'
    | clearA =>
      have hf1 : ∀ x, (m.clear).get_atom x = lastAddedStep f MolOp.clearA x := by
        intro x
        rw [clear_get_atom m x]
        simp [lastAddedStep]
      obtain ⟨m', he', hwf', hg'⟩ := ih m.clear (lastAddedStep f MolOp.clearA) (clear_wf m) hf1
      refine ⟨m', ?_, hwf', hg'⟩
      rw [List.foldlM_cons]
      show (applyOp m MolOp.clearA) >>= (fun b => List.foldlM applyOp b rest) = some m'
      simpa [applyOp] using he'

theorem wf_natoms (m : Molecule) (hwf : m.wf) :
    m.serial_numbers.Nodup ∧ m.serial_numbers.length = m.natoms := by
  obtain ⟨h1, h2, h3, h4, h5, h6⟩ := hwf
  have hperm : (List.insertionSort (· ≤ ·) (m.mapping.map Prod.fst)).Perm (m.mapping.map Prod.fst) :=
    List.perm_insertionSort _ _
  constructor
  · exact hperm.nodup_iff.mpr h1
  · have hvk : (m.mapping.map Prod.snd).Perm (m.graph.nodes.map Prod.fst) :=
      (List.perm_ext_iff_of_nodup h2 h3).mpr (fun a => ⟨h4 a, h5 a⟩)
    have l1 : m.serial_numbers.length = m.mapping.length := by
      rw [Molecule.serial_numbers, List.length_insertionSort, List.length_map]
    have l2 : m.mapping.length = m.graph.nodes.length := by
      have := hvk.length_eq
      rwa [List.length_map, List.length_map] at this
    rw [l1, l2]
    rfl

end MoleculeLemmas

/-- C1: for every finite sequence of `add_atom`, `remove_atom` and `clear`
operations starting from the empty molecule, the run never panics, and after
it the serial numbers are pairwise distinct and in 1:1 correspondence with the
`natoms()` node count, and every serial number resolves to exactly the atom
value most recently added under it (and to nothing if it was removed or
cleared).  Every prefix of a sequence is itself a sequence, so this covers
every intermediate point. -/
theorem c1_bijection_invariant (ops : List MolOp) :
    ∃ mol : Molecule, execOps ops = some mol ∧
      mol.serial_numbers.Nodup ∧
      mol.serial_numbers.length = mol.natoms ∧
      ∀ sn, mol.get_atom sn = lastAdded ops sn := by
  obtain ⟨mol, he, hwf, hg⟩ :=
    exec_inv ops Molecule.defaultMol (fun _ => none) defaultMol_wf defaultMol_get_atom
  obtain ⟨hnd, hlen⟩ := wf_natoms mol hwf
  exact ⟨mol, he, hnd, hlen, hg⟩

/-- C9: `remove_atom` on an absent serial number returns the absent-signal
and returns the molecule state completely unchanged, every field included. -/
theorem c9_remove_absent_noop (m : Molecule) (sn : Nat)
    (h : m.get_node_index sn = none) :
    m.remove_atom sn = (none, m) := by
  simp [Molecule.remove_atom, show alookup m.mapping sn = none from h]

/-- C9 witness: removing serial 1 from the empty molecule returns the
absent-signal and the unchanged molecule. -/
theorem c9_remove_absent_noop_witness :
    Molecule.defaultMol.remove_atom 1 = (none, Molecule.defaultMol) :=
  c9_remove_absent_noop Molecule.defaultMol 1 (by decide)

/-- C10: `clear()` empties the graph and the identity mapping, so afterwards
`natoms()` and `nbonds()` are zero and `serial_numbers()` is empty, while the
name, properties and lattice fields are unchanged. -/
theorem c10_clear_frame (m : Molecule) :
    m.clear.natoms = 0 ∧ m.clear.nbonds = 0 ∧ m.clear.serial_numbers = [] ∧
      m.clear.name = m.name ∧ m.clear.properties = m.properties ∧
      m.clear.lattice = m.lattice := by
  refine ⟨rfl, rfl, rfl, rfl, rfl, rfl⟩

/-- C4: on a serial number that is not present, each of `add_bond` (either
endpoint), `remove_bond` (either endpoint), `set_position` and `set_symbol`
panics (modelled by `none`) instead of returning a value or no-opping. -/
theorem c4_fatal_on_absent (m : Molecule) (sn : Nat) (h : m.get_node_index sn = none) :
    (∀ (b : Nat) (bond : Bond),
      m.add_bond sn b bond = none ∧ m.add_bond b sn bond = none ∧
      m.remove_bond sn b = none ∧ m.remove_bond b sn = none) ∧
    (∀ p : Point3, m.set_position sn p = none) ∧
    (∀ s : String, m.set_symbol sn s = none) := by
  have h' : alookup m.mapping sn = none := h
  refine ⟨?_, ?_, ?_⟩
  · intro b bond
    refine ⟨?_, ?_, ?_, ?_⟩ <;>
      cases hb : alookup m.mapping b <;>
        simp [Molecule.add_bond, Molecule.remove_bond, h', hb]
  · intro p
    simp [Molecule.set_position, Molecule.get_node_index, h']
  · intro s
    simp [Molecule.set_symbol, Molecule.get_node_index, h']

/-- C4 witness: on the empty molecule, serial 1 is absent and all four
fatal-path operations panic on it. -/
theorem c4_fatal_on_absent_witness :
    (Molecule.defaultMol.add_bond 1 2 Bond.single = none ∧
      Molecule.defaultMol.add_bond 2 1 Bond.single = none ∧
      Molecule.defaultMol.remove_bond 1 2 = none ∧
      Molecule.defaultMol.remove_bond 2 1 = none) ∧
    Molecule.defaultMol.set_position 1 (0, 0, 0) = none ∧
    Molecule.defaultMol.set_symbol 1 "C" = none := by
  have h := c4_fatal_on_absent Molecule.defaultMol 1 (by decide)
  exact ⟨h.1 2 Bond.single, h.2.1 (0, 0, 0), h.2.2 "C"⟩

theorem get_atom_some (m : Molecule) (sn n : Nat) (hwf : m.wf)
    (h : alookup m.mapping sn = some n) : ∃ v, m.get_atom sn = some v := by
  obtain ⟨h1, h2, h3, h4, h5, h6⟩ := hwf
  have hnk := h4 n (mem_vals_of_alookup _ _ _ h)
  have hs := (alookup_isSome_iff m.graph.nodes n).mpr hnk
  rw [get_atom_eq, h]
  cases hv : alookup m.graph.nodes n with
  | none => rw [hv] at hs; exact absurd hs (by simp)
  | some v => exact ⟨v, hv⟩

/-- C5: `add_atom` on a present serial number replaces the stored atom value
in place: the identity mapping (entry and handle included) is unchanged, a
subsequent `get_atom` yields the new value, `natoms()` is unchanged, every
other atom is unchanged, and (from any well-formed state) `add_atom` never
fails. -/
theorem c5_replace_on_readd (m : Molecule) (sn n : Nat) (y : Atom)
    (hwf : m.wf) (h : m.get_node_index sn = some n) :
    ∃ m', m.add_atom sn y = some m' ∧
      m'.mapping = m.mapping ∧
      m'.get_atom sn = some y ∧
      m'.natoms = m.natoms ∧
      (∀ x, ¬ x = sn → m'.get_atom x = m.get_atom x) ∧
      (∀ (a : Nat) (atom : Atom), (m.add_atom a atom).isSome = true) := by
  have h' : alookup m.mapping sn = some n := h
  obtain ⟨v, hv⟩ := get_atom_some m sn n hwf h'
  refine ⟨{ m with graph := m.graph.modify_node n (fun _ => y) }, ?_, rfl, ?_, ?_, ?_, ?_⟩
  · simp [Molecule.add_atom, h']
  · rw [modify_node_get_atom m sn n (fun _ => y) hwf h' sn]
    simp [hv]
  · exact modify_node_natoms m n (fun _ => y)
  · intro x hx
    rw [modify_node_get_atom m sn n (fun _ => y) hwf h' x]
    simp [hx]
  · intro a atom
    obtain ⟨m2, he2, _, _⟩ := add_atom_spec m a atom hwf
    simp [he2]

/-- C5 witness: on the two-atom molecule, re-adding serial 1 with the oxygen
atom replaces the value in place with mapping and atom count unchanged. -/
theorem c5_replace_on_readd_witness :
    ∃ m', molAB.add_atom 1 atomO = some m' ∧
      m'.mapping = molAB.mapping ∧
      m'.get_atom 1 = some atomO ∧
      m'.natoms = molAB.natoms ∧
      (∀ x, ¬ x = 1 → m'.get_atom x = molAB.get_atom x) ∧
      (∀ (a : Nat) (atom : Atom), (molAB.add_atom a atom).isSome = true) :=
  c5_replace_on_readd molAB 1 0 atomO (by decide) (by decide)

/-- C2 (divergence of the code from the claim): adding atoms 1 and 2 to the
empty molecule reaches `molAB`; on that molecule `get_bond(1, 2)` — both
serial numbers present, no bond between them — hits the fatal graph edge
indexing instead of returning the absent-signal, while a genuinely absent
serial number (3) does produce the absent-signal. -/
theorem c2_get_bond_fatal_on_unbonded_pair :
    (Molecule.defaultMol.add_atom 1 atomC).bind (fun m => m.add_atom 2 atomH) = some molAB ∧
    molAB.get_bond 1 2 = BondQuery.fatal ∧
    molAB.get_bond 1 3 = BondQuery.absent ∧
    molAB.get_bond 3 2 = BondQuery.absent := by
  refine ⟨by decide, by decide, by decide, by decide⟩

theorem zip_keys_sublist {α : Type} :
    ∀ (l1 : List Nat) (l2 : List α), ((l1.zip l2).map Prod.fst).Sublist l1 := by
  intro l1
  induction l1 with
  | nil => intro l2; simp
  | cons a l ih =>
    intro l2
    cases l2 with
    | nil => simp
    | cons b l2 =>
      simpa using List.Sublist.cons₂ a (ih l2)

theorem bulk_fold_spec {α : Type} (upd : Atom → α → Atom) :
    ∀ (L : List (Nat × α)) (mc : Molecule), mc.wf → (L.map Prod.fst).Nodup →
      (∀ q ∈ L, (alookup mc.mapping q.1).isSome = true) →
      ∃ m1, L.foldlM (bulkStep upd) mc = some m1 ∧ m1.wf ∧ m1.mapping = mc.mapping ∧
        ∀ sn, m1.get_atom sn =
          match L.find? (fun q => decide (q.1 = sn)) with
          | some q => (mc.get_atom sn).map (fun a => upd a q.2)
          | none => mc.get_atom sn := by
  intro L
  induction L with
  | nil =>
    intro mc hwf _ _
    exact ⟨mc, rfl, hwf, rfl, fun sn => by simp⟩
  | cons q rest ih =>
    intro mc hwf hnd hpres
    have hq : (alookup mc.mapping q.1).isSome = true := hpres q (List.mem_cons_self _ _)
    obtain ⟨n, hn⟩ := Option.isSome_iff_exists.mp hq
    have hstep : bulkStep upd mc q =
        some { mc with graph := mc.graph.modify_node n (fun a => upd a q.2) } := by
      simp [bulkStep, Molecule.get_node_index, hn]
    have hwf1 : ({ mc with graph := mc.graph.modify_node n (fun a => upd a q.2) } : Molecule).wf :=
      modify_node_wf mc n _ hwf
    have hnd' : (q.1 :: rest.map Prod.fst).Nodup := by simpa using hnd
    have hcons := List.nodup_cons.mp hnd'
    have hpres1 : ∀ p ∈ rest,
        (alookup ({ mc with graph := mc.graph.modify_node n (fun a => upd a q.2) } : Molecule).mapping p.1).isSome = true := by
      intro p hp
      exact hpres p (List.mem_cons_of_mem _ hp)
    obtain ⟨mf, hef, hwff, hmapf, hgf⟩ := ih _ hwf1 hcons.2 hpres1
    refine ⟨mf, ?_, hwff, hmapf, ?_⟩
    · rw [List.foldlM_cons]
      show (bulkStep upd mc q) >>= (fun b => List.foldlM (bulkStep upd) b rest) = some mf
      rw [hstep]
      simpa using hef
    · intro sn
      rw [hgf sn]
      have hga := modify_node_get_atom mc q.1 n (fun a => upd a q.2) hwf hn sn
      by_cases hsq : sn = q.1
      · have hrest : rest.find? (fun p => decide (p.1 = sn)) = none := by
          rw [List.find?_eq_none]
          intro p hp
          simp only [decide_eq_true_eq]
          intro hps
          have hq1 : q.1 ∈ rest.map Prod.fst := by
            rw [← hsq, ← hps]
            exact List.mem_map.mpr ⟨p, hp, rfl⟩
          exact hcons.1 hq1
        have hfind : (q :: rest).find? (fun p => decide (p.1 = sn)) = some q := by
          rw [List.find?_cons, show decide (q.1 = sn) = true from decide_eq_true hsq.symm]
        rw [hrest, hfind]
        subst hsq
        simp [hga]
      · have hfind : (q :: rest).find? (fun p => decide (p.1 = sn)) =
            rest.find? (fun p => decide (p.1 = sn)) := by
          rw [List.find?_cons,
            show decide (q.1 = sn) = false from decide_eq_false (fun e => hsq e.symm)]
        rw [hfind]
        cases hr : rest.find? (fun p => decide (p.1 = sn)) <;> simp [hga, hsq]

theorem wf_serials_present (m : Molecule) (_hwf : m.wf) :
    ∀ sn ∈ m.serial_numbers, (alookup m.mapping sn).isSome = true := by
  intro sn hsn
  rw [Molecule.serial_numbers, List.mem_insertionSort] at hsn
  exact (alookup_isSome_iff _ _).mpr hsn

/-- C8: for every well-formed molecule and every supplied value sequence,
`serial_numbers()` is ascending, and each of `set_positions`,
`update_positions` and `set_symbols` succeeds, leaves the identity mapping
unchanged, and updates exactly the atoms paired by position with the
ascending serial numbers: a shorter value sequence updates only that many
atoms (the smallest serial numbers, by sortedness), a longer one has its
extra values ignored by the pairing, and every unpaired atom is unchanged. -/
theorem c8_bulk_positional (m : Molecule) (hwf : m.wf)
    (ps qs : List Point3) (ss : List String) :
    List.Sorted (· ≤ ·) m.serial_numbers ∧
    (∃ m1, m.set_positions ps = some m1 ∧ m1.mapping = m.mapping ∧
      ∀ sn, m1.get_atom sn = pairedUpd (fun a p => a.set_position p) m ps sn) ∧
    (∃ m2, m.update_positions qs = some m2 ∧ m2.mapping = m.mapping ∧
      ∀ sn, m2.get_atom sn = pairedUpd (fun a p => a.update_position p) m qs sn) ∧
    (∃ m3, m.set_symbols ss = some m3 ∧ m3.mapping = m.mapping ∧
      ∀ sn, m3.get_atom sn = pairedUpd (fun a s => a.set_symbol s) m ss sn) := by
  have hsorted : List.Sorted (· ≤ ·) m.serial_numbers := List.sorted_insertionSort _ _
  have hnd : m.serial_numbers.Nodup := (wf_natoms m hwf).1
  refine ⟨hsorted, ?_, ?_, ?_⟩
  · obtain ⟨m1, he, hw, hm, hg⟩ := bulk_fold_spec (fun a p => a.set_position p)
      (m.serial_numbers.zip ps) m hwf
      (List.Nodup.sublist (zip_keys_sublist _ _) hnd)
      (fun q hq => wf_serials_present m hwf q.1 (List.of_mem_zip hq).1)
    exact ⟨m1, he, hm, fun sn => by rw [hg sn]; rfl⟩
  · obtain ⟨m2, he, hw, hm, hg⟩ := bulk_fold_spec (fun a p => a.update_position p)
      (m.serial_numbers.zip qs) m hwf
      (List.Nodup.sublist (zip_keys_sublist _ _) hnd)
      (fun q hq => wf_serials_present m hwf q.1 (List.of_mem_zip hq).1)
    exact ⟨m2, he, hm, fun sn => by rw [hg sn]; rfl⟩
  · obtain ⟨m3, he, hw, hm, hg⟩ := bulk_fold_spec (fun a s => a.set_symbol s)
      (m.serial_numbers.zip ss) m hwf
      (List.Nodup.sublist (zip_keys_sublist _ _) hnd)
      (fun q hq => wf_serials_present m hwf q.1 (List.of_mem_zip hq).1)
    exact ⟨m3, he, hm, fun sn => by rw [hg sn]; rfl⟩

/-- C8 witness: on the two-atom molecule with serials 1 and 2, a one-element
position list updates only the smallest serial, an empty list updates
nothing, and a three-element symbol list has its extra value ignored. -/
theorem c8_bulk_positional_witness :
    List.Sorted (· ≤ ·) molAB.serial_numbers ∧
    (∃ m1, molAB.set_positions [(1, 2, 3)] = some m1 ∧ m1.mapping = molAB.mapping ∧
      ∀ sn, m1.get_atom sn = pairedUpd (fun a p => a.set_position p) molAB [(1, 2, 3)] sn) ∧
    (∃ m2, molAB.update_positions [] = some m2 ∧ m2.mapping = molAB.mapping ∧
      ∀ sn, m2.get_atom sn = pairedUpd (fun a p => a.update_position p) molAB [] sn) ∧
    (∃ m3, molAB.set_symbols ["N", "O", "F"] = some m3 ∧ m3.mapping = molAB.mapping ∧
      ∀ sn, m3.get_atom sn = pairedUpd (fun a s => a.set_symbol s) molAB ["N", "O", "F"] sn) :=
  c8_bulk_positional molAB (by decide) [(1, 2, 3)] [] ["N", "O", "F"]

theorem any_key_iff {κ α : Type} [DecidableEq κ] (l : List (κ × α)) (k : κ) :
    l.any (fun p => decide (p.1 = k)) = true ↔ k ∈ l.map Prod.fst := by
  rw [List.any_eq_true]
  constructor
  · rintro ⟨p, hp, hpk⟩
    exact List.mem_map.mpr ⟨p, hp, of_decide_eq_true hpk⟩
  · intro hm
    obtain ⟨p, hp, hpk⟩ := List.mem_map.mp hm
    exact ⟨p, hp, decide_eq_true hpk⟩

theorem filter_key_eq_nil {κ α : Type} [DecidableEq κ] (l : List (κ × α)) (k : κ)
    (h : k ∉ l.map Prod.fst) : l.filter (fun p => decide (p.1 = k)) = [] := by
  rw [List.filter_eq_nil_iff]
  intro p hp
  simp only [decide_eq_true_eq]
  intro hpk
  exact h (List.mem_map.mpr ⟨p, hp, hpk⟩)

theorem filter_key_sub {κ α : Type} [DecidableEq κ] (l : List (κ × α)) (k : κ)
    (hnd : (l.map Prod.fst).Nodup) :
    l.filter (fun p => decide (p.1 = k)) = [] ∨
      ∃ p, l.filter (fun p => decide (p.1 = k)) = [p] := by
  induction l with
  | nil => exact Or.inl rfl
  | cons q rest ih =>
    have hnd' : (q.1 :: rest.map Prod.fst).Nodup := by simpa using hnd
    have hcons := List.nodup_cons.mp hnd'
    by_cases hq : q.1 = k
    · right
      refine ⟨q, ?_⟩
      rw [List.filter_cons, if_pos (by simp [hq])]
      rw [filter_key_eq_nil rest k (by rw [← hq]; exact hcons.1)]
    · rcases ih hcons.2 with h | ⟨p, hp⟩
      · left
        rw [List.filter_cons, if_neg (by simp [hq]), h]
      · right
        exact ⟨p, by rw [List.filter_cons, if_neg (by simp [hq]), hp]⟩

theorem count_fold_keys :
    ∀ (symbols : List String) (acc : List (String × Nat)),
      (acc.map Prod.fst).Nodup →
      (((symbols.foldl countStep acc).map Prod.fst).Nodup ∧
        ∀ s, s ∈ (symbols.foldl countStep acc).map Prod.fst ↔
          s ∈ acc.map Prod.fst ∨ s ∈ symbols) := by
  intro symbols
  induction symbols with
  | nil =>
    intro acc h
    exact ⟨h, fun s => by simp⟩
  | cons x rest ih =>
    intro acc h
    rw [List.foldl_cons]
    by_cases hx : acc.any (fun p => decide (p.1 = x)) = true
    · have hxk : x ∈ acc.map Prod.fst := (any_key_iff acc x).mp hx
      have hstep : countStep acc x = acc.map (fun p => if p.1 = x then (p.1, p.2 + 1) else p) := by
        simp [countStep, hx]
      rw [hstep]
      have hkeys : (acc.map (fun p => if p.1 = x then (p.1, p.2 + 1) else p)).map Prod.fst =
          acc.map Prod.fst := keys_modify acc x (fun v => v + 1)
      obtain ⟨ihn, ihm⟩ := ih _ (by rw [hkeys]; exact h)
      refine ⟨ihn, ?_⟩
      intro s
      rw [ihm s, hkeys]
      constructor
      · rintro (hs | hs)
        · exact Or.inl hs
        · exact Or.inr (List.mem_cons_of_mem _ hs)
      · rintro (hs | hs)
        · exact Or.inl hs
        · rcases List.mem_cons.mp hs with hs | hs
          · exact Or.inl (hs ▸ hxk)
          · exact Or.inr hs
    · have hxk : x ∉ acc.map Prod.fst := fun hm => hx ((any_key_iff acc x).mpr hm)
      have hstep : countStep acc x = acc ++ [(x, 1)] := by
        unfold countStep
        rw [if_neg hx]
      rw [hstep]
      have hkeys : ((acc ++ [(x, 1)]).map Prod.fst) = acc.map Prod.fst ++ [x] := by simp
      have hnd2 : ((acc ++ [(x, 1)]).map Prod.fst).Nodup := by
        rw [hkeys, List.nodup_append]
        refine ⟨h, by simp, ?_⟩
        intro a ha hb
        simp only [List.mem_singleton] at hb
        subst hb
        exact hxk ha
      obtain ⟨ihn, ihm⟩ := ih _ hnd2
      refine ⟨ihn, ?_⟩
      intro s
      rw [ihm s, hkeys]
      rw [List.mem_append, List.mem_singleton, List.mem_cons]
      tauto

theorem formula_fold_char :
    ∀ (counts : List (String × Nat)) (acc : List String × String),
      (counts.map Prod.fst).Nodup →
      counts.foldl formulaStep acc =
        ((counts.filter (fun p => decide (p.1 = "C"))).map (fun p => renderFragment p.1 p.2) ++
            acc.1 ++
            (counts.filter (fun p => decide (¬ p.1 = "C") && decide (¬ p.1 = "H"))).map
              (fun p => renderFragment p.1 p.2),
         match counts.filter (fun p => decide (p.1 = "H")) with
         | [] => acc.2
         | h :: _ => renderFragment h.1 h.2) := by
  intro counts
  induction counts with
  | nil =>
    intro acc _
    simp
  | cons q rest ih =>
    intro acc hnd
    have hnd' : (q.1 :: rest.map Prod.fst).Nodup := by simpa using hnd
    have hcons := List.nodup_cons.mp hnd'
    rw [List.foldl_cons, ih _ hcons.2]
    by_cases hC : q.1 = "C"
    · have hCH : ¬ q.1 = "H" := by rw [hC]; decide
      have hstep : formulaStep acc q = (renderFragment q.1 q.2 :: acc.1, acc.2) := by
        simp [formulaStep, hC]
      have e1 : (q :: rest).filter (fun p => decide (p.1 = "C")) = [q] := by
        rw [List.filter_cons, if_pos (by simp [hC]),
          filter_key_eq_nil rest "C" (by rw [← hC]; exact hcons.1)]
      have e2 : (q :: rest).filter (fun p => decide (¬ p.1 = "C") && decide (¬ p.1 = "H")) =
          rest.filter (fun p => decide (¬ p.1 = "C") && decide (¬ p.1 = "H")) := by
        rw [List.filter_cons, if_neg (by simp [hC])]
      have e3 : (q :: rest).filter (fun p => decide (p.1 = "H")) =
          rest.filter (fun p => decide (p.1 = "H")) := by
        rw [List.filter_cons, if_neg (by simp [hCH])]
      have e4 : rest.filter (fun p => decide (p.1 = "C")) = [] :=
        filter_key_eq_nil rest "C" (by rw [← hC]; exact hcons.1)
      rw [hstep, e1, e2, e3, e4]
      simp
    · by_cases hH : q.1 = "H"
      · have hstep : formulaStep acc q = (acc.1, renderFragment q.1 q.2) := by
          simp [formulaStep, hC, hH]
        have e1 : (q :: rest).filter (fun p => decide (p.1 = "C")) =
            rest.filter (fun p => decide (p.1 = "C")) := by
          rw [List.filter_cons, if_neg (by simp [hC])]
        have e2 : (q :: rest).filter (fun p => decide (¬ p.1 = "C") && decide (¬ p.1 = "H")) =
            rest.filter (fun p => decide (¬ p.1 = "C") && decide (¬ p.1 = "H")) := by
          rw [List.filter_cons, if_neg (by simp [hH])]
        have e3 : (q :: rest).filter (fun p => decide (p.1 = "H")) = [q] := by
          rw [List.filter_cons, if_pos (by simp [hH]),
            filter_key_eq_nil rest "H" (by rw [← hH]; exact hcons.1)]
        have e4 : rest.filter (fun p => decide (p.1 = "H")) = [] :=
          filter_key_eq_nil rest "H" (by rw [← hH]; exact hcons.1)
        rw [hstep, e1, e2, e3, e4]
      · have hstep : formulaStep acc q = (acc.1 ++ [renderFragment q.1 q.2], acc.2) := by
          simp [formulaStep, hC, hH]
        have e1 : (q :: rest).filter (fun p => decide (p.1 = "C")) =
            rest.filter (fun p => decide (p.1 = "C")) := by
          rw [List.filter_cons, if_neg (by simp [hC])]
        have e2 : (q :: rest).filter (fun p => decide (¬ p.1 = "C") && decide (¬ p.1 = "H")) =
            q :: rest.filter (fun p => decide (¬ p.1 = "C") && decide (¬ p.1 = "H")) := by
          rw [List.filter_cons, if_pos (by simp [hC, hH])]
        have e3 : (q :: rest).filter (fun p => decide (p.1 = "H")) =
            rest.filter (fun p => decide (p.1 = "H")) := by
          rw [List.filter_cons, if_neg (by simp [hH])]
        rw [hstep, e1, e2, e3]
        simp

theorem join_append_single (xs : List String) (s : String) :
    String.join (xs ++ [s]) = String.join xs ++ s := by
  show List.foldl (· ++ ·) "" (xs ++ [s]) = _
  rw [List.foldl_append]
  rfl

/-- C6: the four concrete formula-reduction scenarios: two carbons and four
hydrogens give C2H4, adding two oxygens gives C2O2H4, the empty input gives
the empty string, and a single oxygen renders without a trailing count. -/
theorem c6_formula_scenarios :
    get_reduced_formula ["C", "H", "C", "H", "H", "H"] = "C2H4" ∧
    get_reduced_formula ["C", "H", "C", "H", "H", "O", "H", "O"] = "C2O2H4" ∧
    get_reduced_formula [] = "" ∧
    get_reduced_formula ["O"] = "O" := by
  refine ⟨by decide, by decide, by decide, by decide⟩

/-- C7: for every input, the rendered formula is the concatenation of the
carbon fragment (first, when carbon occurs), then the fragments of all other
distinct symbols in count-map order, then the hydrogen fragment (last, when
hydrogen occurs); the count map carries each distinct input symbol exactly
once, so every distinct symbol contributes exactly one fragment. -/
theorem c7_formula_ordering (symbols : List String) :
    ((get_reduced_symbols symbols).map Prod.fst).Nodup ∧
    (∀ s, s ∈ (get_reduced_symbols symbols).map Prod.fst ↔ s ∈ symbols) ∧
    get_reduced_formula symbols =
      String.join
        (((get_reduced_symbols symbols).filter (fun p => decide (p.1 = "C"))).map
            (fun p => renderFragment p.1 p.2) ++
          ((get_reduced_symbols symbols).filter
              (fun p => decide (¬ p.1 = "C") && decide (¬ p.1 = "H"))).map
            (fun p => renderFragment p.1 p.2) ++
          ((get_reduced_symbols symbols).filter (fun p => decide (p.1 = "H"))).map
            (fun p => renderFragment p.1 p.2)) := by
  obtain ⟨hnd, hmem⟩ := count_fold_keys symbols [] (by simp)
  refine ⟨hnd, ?_, ?_⟩
  · intro s
    show s ∈ (List.foldl countStep [] symbols).map Prod.fst ↔ s ∈ symbols
    rw [hmem s]
    simp
  · have hchar := formula_fold_char (get_reduced_symbols symbols) ([], "") hnd
    simp only [get_reduced_formula, hchar]
    rcases filter_key_sub (get_reduced_symbols symbols) "H" hnd with hH | ⟨p, hH⟩
    · rw [hH, join_append_single]
      simp [String.append_empty]
    · rw [hH]
      simp only [List.map_cons, List.map_nil]
      rw [join_append_single, join_append_single]
      simp

theorem splitNewline_no_newline :
    ∀ (cs : List Char), '\n' ∉ cs → splitNewline cs = [cs] := by
  intro cs
  induction cs with
  | nil => intro _; rfl
  | cons c rest ih =>
    intro h
    have hc : ¬ c = '\n' := fun e => h (e ▸ List.mem_cons_self _ _)
    have hr : '\n' ∉ rest := fun hm => h (List.mem_cons_of_mem _ hm)
    simp [splitNewline, hc, ih hr]

theorem splitNewline_head :
    ∀ (cs : List Char), ∃ ps, splitNewline cs = cs.takeWhile (fun c => !(c = '\n')) :: ps := by
  intro cs
  induction cs with
  | nil => exact ⟨[], rfl⟩
  | cons c rest ih =>
    by_cases hc : c = '\n'
    · subst hc
      exact ⟨splitNewline rest, by simp [splitNewline, List.takeWhile_cons]⟩
    · obtain ⟨ps, hps⟩ := ih
      exact ⟨ps, by simp [splitNewline, hc, hps, List.takeWhile_cons]⟩

theorem splitNewline_append (l2 : List Char) :
    ∀ (l1 : List Char), '\n' ∉ l1 →
      splitNewline (l1 ++ '\n' :: l2) = l1 :: splitNewline l2 := by
  intro l1
  induction l1 with
  | nil => intro _; simp [splitNewline]
  | cons c rest ih =>
    intro h
    have hc : ¬ c = '\n' := fun e => h (e ▸ List.mem_cons_self _ _)
    have hr : '\n' ∉ rest := fun hm => h (List.mem_cons_of_mem _ hm)
    simp [splitNewline, hc, ih hr]

theorem mem_newline_decomp :
    ∀ (cs : List Char), '\n' ∈ cs →
      ∃ l2, cs = cs.takeWhile (fun c => !(c = '\n')) ++ '\n' :: l2 ∧
        '\n' ∉ cs.takeWhile (fun c => !(c = '\n')) := by
  intro cs
  induction cs with
  | nil => intro h; simp at h
  | cons c rest ih =>
    intro h
    by_cases hc : c = '\n'
    · subst hc
      exact ⟨rest, by simp [List.takeWhile_cons], by simp [List.takeWhile_cons]⟩
    · have hr : '\n' ∈ rest := by
        rcases List.mem_cons.mp h with e | e
        · exact absurd e.symm hc
        · exact e
      obtain ⟨l2, hdec, hnm⟩ := ih hr
      refine ⟨l2, ?_, ?_⟩
      · rw [List.takeWhile_cons, if_pos (by simp [hc])]
        rw [List.cons_append]
        rw [← hdec]
      · rw [List.takeWhile_cons, if_pos (by simp [hc])]
        intro hm
        rcases List.mem_cons.mp hm with e | e
        · exact hc e.symm
        · exact hnm e

theorem takeWhile_all {α : Type} {p : α → Bool} :
    ∀ (l : List α), (∀ a ∈ l, p a = true) → l.takeWhile p = l := by
  intro l
  induction l with
  | nil => intro _; rfl
  | cons c rest ih =>
    intro h
    rw [List.takeWhile_cons, if_pos (h c (List.mem_cons_self _ _)), ih]
    intro a ha
    exact h a (List.mem_cons_of_mem _ ha)

theorem rustTrim_append_cr (x : List Char) : rustTrim (x ++ ['\r']) = rustTrim x := by
  unfold rustTrim
  rw [List.dropWhile_append]
  by_cases hx : (x.dropWhile isWS).isEmpty = true
  · rw [if_pos hx]
    have h2 : x.dropWhile isWS = [] := by
      cases he : x.dropWhile isWS
      · rfl
      · rw [he] at hx; simp at hx
    rw [h2]
    rfl
  · rw [if_neg hx]
    rw [List.reverse_append]
    show (List.dropWhile isWS ('\r' :: (x.dropWhile isWS).reverse)).reverse = _
    rw [List.dropWhile_cons, if_pos (by decide)]

theorem rustLines_eq (cs : List Char) (g : List Char)
    (hg : (splitNewline cs).getLast? = some g) :
    rustLines cs =
      if g = [] then (splitNewline cs).dropLast.map stripCRend
      else (splitNewline cs).dropLast.map stripCRend ++ [g] := by
  unfold rustLines
  rw [hg]

theorem rustTrim_stripCRend (l : List Char) : rustTrim (stripCRend l) = rustTrim l := by
  unfold stripCRend
  by_cases h : l.getLast? = some '\r'
  · rw [if_pos h]
    have hne : l ≠ [] := by
      intro e
      rw [e] at h
      simp at h
    have hlast : l.getLast hne = '\r' := by
      have hsome : l.getLast? = some (l.getLast hne) := List.getLast?_eq_getLast l hne
      rw [h] at hsome
      exact (Option.some.injEq _ _ ▸ hsome).symm
    have hdec : l.dropLast ++ ['\r'] = l := by
      rw [← hlast]
      exact List.dropLast_append_getLast hne
    conv_rhs => rw [← hdec]
    exact (rustTrim_append_cr l.dropLast).symm
  · rw [if_neg h]

/-- C3 counterexample: a whitespace-only name yields the empty title, not the
placeholder, and a name whose first line is empty yields the empty title, not
the first non-empty line trimmed. -/
theorem c3_title_counterexample :
    ((Molecule.new " ").title = "" ∧ ¬ (Molecule.new " ").title = "untitled") ∧
    ((Molecule.new "\nfoo").title = "" ∧ ¬ (Molecule.new "\nfoo").title = "foo") := by
  refine ⟨⟨by decide, by decide⟩, ⟨by decide, by decide⟩⟩

/-- C3 (amended): `title()` returns the first line of the stored name (not
the first non-empty line) trimmed of surrounding whitespace, and returns the
placeholder exactly when the name is the empty string (not whenever it is all
whitespace). -/
theorem c3_title_amended (name : String) :
    (Molecule.new name).title = titleSpecAmended name := by
  by_cases h0 : name = ""
  · subst h0
    rfl
  · have hdata : name.data ≠ [] := by
      intro hd
      apply h0
      cases name
      simp_all
    show Molecule.title (Molecule.new name) = _
    unfold Molecule.title titleSpecAmended
    rw [if_neg h0]
    show (match rustLines name.data with
      | [] => "untitled"
      | t :: _ => (⟨rustTrim t⟩ : String)) = ⟨rustTrim (firstLineChars name.data)⟩
    by_cases hnl : '\n' ∈ name.data
    · obtain ⟨l2, hdec, hnm⟩ := mem_newline_decomp name.data hnl
      have hsp : splitNewline name.data =
          name.data.takeWhile (fun c => !(c = '\n')) :: splitNewline l2 := by
        conv_lhs => rw [hdec]
        exact splitNewline_append l2 _ hnm
      obtain ⟨ps, hps⟩ := splitNewline_head l2
      have hcons : ∃ rest, rustLines name.data =
          stripCRend (name.data.takeWhile (fun c => !(c = '\n'))) :: rest := by
        cases hg : (l2.takeWhile (fun c => !(c = '\n')) :: ps).getLast? with
        | none => simp at hg
        | some g =>
          have hg' : (splitNewline name.data).getLast? = some g := by
            rw [hsp, hps, List.getLast?_cons_cons]
            exact hg
          have hdl : (splitNewline name.data).dropLast.map stripCRend =
              stripCRend (name.data.takeWhile (fun c => !(c = '\n'))) ::
                ((l2.takeWhile (fun c => !(c = '\n')) :: ps).dropLast.map stripCRend) := by
            rw [hsp, hps, List.dropLast_cons₂, List.map_cons]
          rw [rustLines_eq name.data g hg']
          by_cases hg0 : g = []
          · rw [if_pos hg0, hdl]
            exact ⟨_, rfl⟩
          · rw [if_neg hg0, hdl]
            exact ⟨_, List.cons_append _ _ _⟩
      obtain ⟨rest, hrl⟩ := hcons
      rw [hrl]
      show (⟨rustTrim (stripCRend (name.data.takeWhile (fun c => !(c = '\n'))))⟩ : String) = _
      rw [rustTrim_stripCRend]
      rfl
    · have hsp : splitNewline name.data = [name.data] := splitNewline_no_newline _ hnl
      have htwa : name.data.takeWhile (fun c => !(c = '\n')) = name.data := by
        apply takeWhile_all
        intro a ha
        simp only [Bool.not_eq_true']
        rw [decide_eq_false_iff_not]
        intro e
        exact hnl (e ▸ ha)
      have hrl : rustLines name.data = [name.data] := by
        have hg' : (splitNewline name.data).getLast? = some name.data := by
          rw [hsp]
          rfl
        rw [rustLines_eq name.data name.data hg', if_neg hdata, hsp]
        rfl
      rw [hrl]
      show (⟨rustTrim name.data⟩ : String) = ⟨rustTrim (firstLineChars name.data)⟩
      unfold firstLineChars
      rw [htwa]

